import Mathlib

/-!
# zrpc: owning pointer vector and the zsendrpc command-line tool

A shallow embedding of

* `src/src/zrpc/pointer_vector.h` : `zrpc::PointerVector<T>`, a `std::vector<T*>` whose
  `resize`, `erase` and destructor `delete` the pointers they drop;
* `src/src/zrpc/zsendrpc.cc` : `zrpc::RunCall`, `zrpc::Run` and `main`.

Heap objects are identified by their address (a natural number); a `T*` is either `NULL`
or such an address.  Running `delete p` is recorded in a log of destroyed objects, so that
"destroyed exactly once" is a statement about how often an address occurs in that log.
`std::vector<T*>` is a `List` and iterators are offsets from `begin()`.  Memory is never
exhausted, but a request for more than `max_size()` elements is refused with
`std::length_error`, as the library does.
-/

namespace zrpc

/-! ## Heap objects and `delete` -/

/-- A value of type `T*`: `none` is the null pointer, `some a` points to the object at `a`. -/
abbrev Ptr := Option Nat

/-- The effect of the program on the free store that matters here: the objects on which
`delete` has run, oldest first. -/
structure Heap where
  deleted : List Nat
deriving DecidableEq, Repr

/-- The C++ expression `delete p`: nothing for a null pointer, otherwise the pointee is
destroyed. -/
def delete (p : Ptr) (h : Heap) : Heap :=
  match p with
  | none => h
  | some a => { deleted := h.deleted ++ [a] }

/-- How many times the object `a` was destroyed between heap `h` and the later heap `h2`. -/
def deletions (h h2 : Heap) (a : Nat) : Nat :=
  h2.deleted.count a - h.deleted.count a

/-! ## `std::vector<T*>` primitives used by `PointerVector` -/

/-- The value of `std::vector<T*>::max_size()`.  It is fixed by the library; this is the
value of libstdc++ where `size_t` has 64 bits, `PTRDIFF_MAX / sizeof(T*)`.  The general
theorems below do not depend on the number chosen. -/
def max_size : Nat := 2 ^ 60 - 1

/-- How a call that may throw ended, together with the state it left behind. -/
inductive Completion (σ : Type) where
  | returned (s : σ)
  | length_error (s : σ)
deriving DecidableEq, Repr

/-- The call `std::vector<T*>::resize(sz)` for a `size_t sz`: drops the tail, or appends
value-initialised (null) pointers; when it would have to grow beyond `max_size()` it throws
`std::length_error` (`none`) and the vector stays as it was.  Every `size_t` is below
2^64 and `max_size()` is smaller still, so no vector grows to a size that is not a
`size_t`. -/
def vector_resize (d : List Ptr) (sz : Nat) : Option (List Ptr) :=
  if sz ≤ d.length then some (d.take sz)
  else if sz ≤ max_size then some (d ++ List.replicate (sz - d.length) none)
  else none

/-- The call `std::vector<T*>::erase(first, last)` on a valid range; an invalid range is
undefined behaviour (`none`). -/
def vector_erase_range (d : List Ptr) (first last : Nat) : Option (List Ptr) :=
  if first ≤ last ∧ last ≤ d.length then some (d.take first ++ d.drop last) else none

/-! ## `PointerVector` -/

/-- The class `PointerVector<T>`: its only member is `std::vector<T*> data_`. -/
structure PointerVector where
  data_ : List Ptr
deriving DecidableEq, Repr

namespace PointerVector

/-- The constructor `PointerVector() {}`. -/
def empty : PointerVector := { data_ := [] }

/-- The member `size()`: `data_.size()`. -/
def size (v : PointerVector) : Nat := v.data_.length

/-- The member `push_back(value)`: `data_.push_back(value)`. -/
def push_back (v : PointerVector) (value : Ptr) (h : Heap) : PointerVector × Heap :=
  ({ data_ := v.data_ ++ [value] }, h)

/-- The loop `for (size_t i = sz; i < size(); ++i) delete data_[i];` of `resize`, started at
index `i`; `fuel` bounds the number of iterations. -/
def resizeLoop (v : PointerVector) : Nat → Nat → Heap → Heap
  | 0, _, h => h
  | fuel + 1, i, h =>
    if i < v.size then resizeLoop v fuel (i + 1) (delete (v.data_.getD i none) h) else h

/-- The member `resize(sz)`: delete `data_[sz..size())`, then `data_.resize(sz)`.  The loop
runs at most `size()` times.  A `std::length_error` thrown by `data_.resize` leaves the
member function with `data_` unchanged and the heap as the loop left it. -/
def resize (v : PointerVector) (sz : Nat) (h : Heap) : Completion (PointerVector × Heap) :=
  match vector_resize v.data_ sz with
  | some d => Completion.returned ({ data_ := d }, resizeLoop v v.size sz h)
  | none => Completion.length_error (v, resizeLoop v v.size sz h)

/-- The destructor `~PointerVector() { resize(0); }`; the vector itself ceases to exist. -/
def destructor (v : PointerVector) (h : Heap) : Heap :=
  match v.resize 0 h with
  | Completion.returned r => r.2
  | Completion.length_error r => r.2

/-- The member `at(index)`: `data_.at(index)`, which throws `std::out_of_range` (`none`) when
`index >= size()`.  It reads only: vector and heap are returned as they were. -/
def at_ (v : PointerVector) (index : Nat) (h : Heap) : Option Ptr × PointerVector × Heap :=
  (v.data_[index]?, v, h)

/-- The member `operator[](index)`: `return at(index);`. -/
def op_index (v : PointerVector) (index : Nat) (h : Heap) :
    Option Ptr × PointerVector × Heap :=
  v.at_ index h

/-- The member `swap(other)`: `data_.swap(other.data_)`.  Returns the new `*this` and the new
`other`. -/
def swap (v other : PointerVector) (h : Heap) : PointerVector × PointerVector × Heap :=
  ({ data_ := other.data_ }, { data_ := v.data_ }, h)

/-- The loop `for (iterator i = first; i != last; ++i) delete *i;` of the range `erase`.
Dereferencing an iterator at or past `end()` is undefined behaviour (`none`). -/
def eraseLoop (v : PointerVector) (last : Nat) : Nat → Nat → Heap → Option Heap
  | 0, _, _ => none
  | fuel + 1, i, h =>
    if i = last then some h
    else if i < v.size then eraseLoop v last fuel (i + 1) (delete (v.data_.getD i none) h)
    else none

/-- The member `erase(first, last)`: delete every `*i` of the range, then
`data_.erase(first, last)`.  An iterator can be advanced at most `size()` times before it is
`end()`, so `size() + 1` rounds of the loop decide its outcome. -/
def erase_range (v : PointerVector) (first last : Nat) (h : Heap) :
    Option (PointerVector × Heap) :=
  match v.eraseLoop last (v.size + 1) first h with
  | none => none
  | some h2 =>
    match vector_erase_range v.data_ first last with
    | none => none
    | some d => some ({ data_ := d }, h2)

/-- The member `erase(index)`: `delete data_[index]; data_.erase(data_.begin() + index);`.
An index outside the vector is undefined behaviour (`none`). -/
def erase (v : PointerVector) (index : Nat) (h : Heap) : Option (PointerVector × Heap) :=
  match v.data_[index]? with
  | none => none
  | some p => some ({ data_ := v.data_.eraseIdx index }, delete p h)

end PointerVector

/-! ## Programs over several `PointerVector`s -/

/-- One statement of a client program that works on the vectors numbered `c`, `d`. -/
inductive Op where
  | push_back (c : Nat) (value : Ptr)
  | resize (c : Nat) (sz : Nat)
  | erase (c : Nat) (index : Nat)
  | erase_range (c : Nat) (first last : Nat)
  | swap (c d : Nat)
deriving DecidableEq, Repr

/-- The vectors of a client program and the heap they share. -/
structure World where
  vecs : List PointerVector
  heap : Heap
deriving DecidableEq, Repr

/-- A world of `n` freshly constructed vectors; nothing has been destroyed. -/
def World.init (n : Nat) : World :=
  { vecs := List.replicate n PointerVector.empty, heap := { deleted := [] } }

/-- Executes one statement; `none` when it names a vector that does not exist or runs into
undefined behaviour.  A `resize` that throws `std::length_error` is caught by the program,
which carries on with the state the call left. -/
def step (w : World) : Op → Option World
  | Op.push_back c value =>
    match w.vecs[c]? with
    | none => none
    | some v =>
      let r := v.push_back value w.heap
      some { vecs := w.vecs.set c r.1, heap := r.2 }
  | Op.resize c sz =>
    match w.vecs[c]? with
    | none => none
    | some v =>
      match v.resize sz w.heap with
      | Completion.returned r => some { vecs := w.vecs.set c r.1, heap := r.2 }
      | Completion.length_error r => some { vecs := w.vecs.set c r.1, heap := r.2 }
  | Op.erase c index =>
    match w.vecs[c]? with
    | none => none
    | some v =>
      match v.erase index w.heap with
      | none => none
      | some r => some { vecs := w.vecs.set c r.1, heap := r.2 }
  | Op.erase_range c first last =>
    match w.vecs[c]? with
    | none => none
    | some v =>
      match v.erase_range first last w.heap with
      | none => none
      | some r => some { vecs := w.vecs.set c r.1, heap := r.2 }
  | Op.swap c d =>
    match w.vecs[c]?, w.vecs[d]? with
    | some v, some other =>
      let r := v.swap other w.heap
      some { vecs := (w.vecs.set c r.1).set d r.2.1, heap := r.2.2 }
    | _, _ => none

/-- Executes the statements in order. -/
def run (w : World) : List Op → Option World
  | [] => some w
  | op :: ops =>
    match step w op with
    | none => none
    | some w2 => run w2 ops

/-- End of the program: every vector is destroyed, in order. -/
def destroyAll : List PointerVector → Heap → Heap
  | [], h => h
  | v :: vs, h => destroyAll vs (v.destructor h)

/-- The preconditions of a statement in world `w`: the vectors exist, `erase(index)` has
`index < size()`, and `erase(first, last)` has `first <= last <= end()`. -/
def Pre (w : World) : Op → Prop
  | Op.push_back c _ => c < w.vecs.length
  | Op.resize c _ => c < w.vecs.length
  | Op.erase c index => c < w.vecs.length ∧ index < (w.vecs.getD c PointerVector.empty).size
  | Op.erase_range c first last =>
    c < w.vecs.length ∧ first ≤ last ∧ last ≤ (w.vecs.getD c PointerVector.empty).size
  | Op.swap c d => c < w.vecs.length ∧ d < w.vecs.length

instance decPre (w : World) : (op : Op) → Decidable (Pre w op)
  | Op.push_back c _ => inferInstanceAs (Decidable (c < w.vecs.length))
  | Op.resize c _ => inferInstanceAs (Decidable (c < w.vecs.length))
  | Op.erase c index =>
    inferInstanceAs
      (Decidable (c < w.vecs.length ∧ index < (w.vecs.getD c PointerVector.empty).size))
  | Op.erase_range c first last =>
    inferInstanceAs
      (Decidable (c < w.vecs.length ∧ first ≤ last ∧
        last ≤ (w.vecs.getD c PointerVector.empty).size))
  | Op.swap c d => inferInstanceAs (Decidable (c < w.vecs.length ∧ d < w.vecs.length))

/-- Every statement of the program meets its precondition in the world it is run in (a
statement that meets its precondition always executes, see `step_account`). -/
def ValidFrom : World → List Op → Prop
  | _, [] => True
  | w, op :: ops => Pre w op ∧ ValidFrom ((step w op).getD w) ops

instance decValidFrom : (w : World) → (ops : List Op) → Decidable (ValidFrom w ops)
  | _, [] => isTrue trivial
  | w, op :: ops =>
    @instDecidableAnd _ _ (decPre w op) (decValidFrom ((step w op).getD w) ops)

/-- The objects the program appends, in order (a null pointer is no object). -/
def appended : List Op → List Nat
  | [] => []
  | Op.push_back _ (some a) :: ops => a :: appended ops
  | _ :: ops => appended ops

/-- The number of slots, over all vectors, that point to the object `a`. -/
def heldCount (a : Nat) (vecs : List PointerVector) : Nat :=
  (vecs.map (fun v => v.data_.count (some a))).sum

/-- The object `a` is held by some vector of the world. -/
def Held (w : World) (a : Nat) : Prop :=
  ∃ v, v ∈ w.vecs ∧ some a ∈ v.data_

/-! ## `std::string` primitives used by `zsendrpc.cc` -/

/-- A `std::string`, as its sequence of characters. -/
abbrev Str := List Char

/-- The constant `std::string::npos`, the largest `size_t` (64 bits). -/
def npos : Nat := 2 ^ 64 - 1

/-- Scan of `s.find(c)` that has already skipped `i` characters. -/
def findFrom (c : Char) : Str → Nat → Nat
  | [], _ => npos
  | x :: xs, i => if x = c then i else findFrom c xs (i + 1)

/-- The call `s.find(c)`: position of the first `c`, or `npos`. -/
def find (s : Str) (c : Char) : Nat := findFrom c s 0

/-- Backward scan of `s.find_last_of(c)` with the positions below `i` still to inspect. -/
def rfindLoop (s : Str) (c : Char) : Nat → Nat
  | 0 => npos
  | i + 1 => if s[i]? = some c then i else rfindLoop s c i

/-- The call `s.find_last_of(c)`: position of the last `c`, or `npos`. -/
def find_last_of (s : Str) (c : Char) : Nat := rfindLoop s c s.length

/-- The constructor `std::string(str, pos, n)`: at most `n` characters of `str` from `pos` on;
throws `std::out_of_range` (`none`) when `pos > str.size()`. -/
def substr (str : Str) (pos n : Nat) : Option Str :=
  if pos > str.length then none else some ((str.drop pos).take n)

/-! ## The command-line tool -/

/-- Modelled from the spec: the closed enumeration of terminal call statuses
(`GenericRPCResponse::Status` in the source, whose declaration is not part of the sources
at hand). -/
inductive Status where
  | OK
  | APPLICATION_ERROR
  | CANCELLED
  | DEADLINE_EXCEEDED
  | CONNECTION_ERROR
  | INVALID_REQUEST
  | UNKNOWN_METHOD
deriving DecidableEq, Repr

/-- A `const MethodDescriptor*` of the protobuf library, by an identifying number. -/
structure MethodDescriptor where
  id : Nat
deriving DecidableEq, Repr

/-- A `const ServiceDescriptor*`: what `FindMethodByName` answers (`none` is `NULL`). -/
structure ServiceDescriptor where
  FindMethodByName : Str → Option MethodDescriptor

/-- A `const FileDescriptor*`: what `FindServiceByName` answers (`none` is `NULL`). -/
structure FileDescriptor where
  FindServiceByName : Str → Option ServiceDescriptor

/-- What the `RPC` object and the reply hold once `rpc.Wait()` has returned. -/
structure RpcResult where
  status : Status
  application_error : Int
  error_message : Str
  reply : Str
deriving DecidableEq, Repr

/-- The collaborators of `RunCall`, which are outside the sources at hand: the protobuf
importer run on `FLAGS_proto`, the text-format parser, and the channel that performs the
call. -/
structure Env where
  Import : Option FileDescriptor
  ParseFromString : MethodDescriptor → Str → Bool
  call : Str → MethodDescriptor → Str → RpcResult

/-- A line the tool writes to `std::cerr`. -/
inductive Diag where
  | must_contain_dot (method : Str)
  | service_not_found (service_name : Str)
  | method_not_found (method_name : Str)
  | could_not_parse
  | status (s : Status)
  | error (application_error : Int) (error_message : Str)
  | reply (out : Str)
  | expecting_command
  | only_call_supported
  | call_usage
deriving DecidableEq, Repr

/-- The observable actions of the tool, in order. -/
inductive Event where
  | Import
  | FindServiceByName (service_name : Str)
  | FindMethodByName (method_name : Str)
  | ParseFromString (payload : Str)
  | CallMethod (endpoint : Str) (method : MethodDescriptor) (payload : Str)
  | Wait
  | cerr (d : Diag)
  | out_of_range
  | ShowUsage
deriving DecidableEq, Repr

/-- The function `void RunCall(endpoint, method, payload)`.  It returns nothing; what it
did is the list of its actions. -/
def RunCall (env : Env) (endpoint method payload : Str) : List Event :=
  Event.Import ::
  match env.Import with
  | none => []
  | some file_desc =>
    if find method '.' = npos then [Event.cerr (Diag.must_contain_dot method)]
    else
      match substr method 0 (find_last_of method '.'),
          substr method ((find_last_of method '.' + 1) % 2 ^ 64) npos with
      | some service_name, some method_name =>
        Event.FindServiceByName service_name ::
        match file_desc.FindServiceByName service_name with
        | none => [Event.cerr (Diag.service_not_found service_name)]
        | some service_desc =>
          Event.FindMethodByName method_name ::
          match service_desc.FindMethodByName method_name with
          | none => [Event.cerr (Diag.method_not_found method_name)]
          | some method_desc =>
            Event.ParseFromString payload ::
            if !env.ParseFromString method_desc payload then
              [Event.cerr Diag.could_not_parse]
            else
              let rpc := env.call endpoint method_desc payload
              Event.CallMethod endpoint method_desc payload :: Event.Wait ::
              if rpc.status ≠ Status.OK then
                [Event.cerr (Diag.status rpc.status),
                 Event.cerr (Diag.error rpc.application_error rpc.error_message)]
              else [Event.cerr (Diag.reply rpc.reply)]
      | _, _ => [Event.out_of_range]

/-- The function `int Run(int argc, char *argv[])`, with `argc` the length of `argv`.
Its result is the returned `int` and the actions performed; reading `argv[1]` of an empty
argument vector is undefined behaviour (`none`). -/
def Run (env : Env) (argv : List Str) : Option (Int × List Event) :=
  if argv.length = 1 then some (-1, [Event.cerr Diag.expecting_command])
  else
    match argv[1]? with
    | none => none
    | some command =>
      if command ≠ "call".toList then some (-1, [Event.cerr Diag.only_call_supported])
      else if argv.length ≠ 5 then some (-1, [Event.cerr Diag.call_usage])
      else
        match argv[2]?, argv[3]?, argv[4]? with
        | some endpoint, some method, some payload =>
          some (0, RunCall env endpoint method payload)
        | _, _, _ => none

/-- The function `main`, on the arguments left by the flag parser: it runs `Run`, shows
the usage text when that returned `-1`, and exits with the value `Run` returned. -/
def main (env : Env) (argv : List Str) : Option (Int × List Event) :=
  match Run env argv with
  | none => none
  | some (retval, t) => some (retval, if retval = -1 then t ++ [Event.ShowUsage] else t)

/-! ### The failures named by the specification of the tool -/

/-- The argument vector is `<program> call <endpoint> <service.method> <payload>`. -/
def WellFormedArgs (argv : List Str) : Prop :=
  argv.length = 5 ∧ argv[1]? = some "call".toList

/-- The string `m` names a service and a method of the proto: it reads
`<service>.<method>` for a service of the file and a method of that service. -/
def Resolves (file_desc : FileDescriptor) (m : Str) (method_desc : MethodDescriptor) : Prop :=
  ∃ service_name method_name service_desc,
    m = service_name ++ '.' :: method_name ∧
    file_desc.FindServiceByName service_name = some service_desc ∧
    service_desc.FindMethodByName method_name = some method_desc

/-- A failure in the sense of the specification: malformed arguments, an unresolvable
`<service.method>`, a payload that fails to parse, or a terminal status other than `OK`. -/
def SpecFailure (env : Env) (argv : List Str) : Prop :=
  ¬ WellFormedArgs argv ∨
  ∃ prog endpoint method payload file_desc,
    argv = [prog, "call".toList, endpoint, method, payload] ∧ env.Import = some file_desc ∧
    ((∀ method_desc, ¬ Resolves file_desc method method_desc) ∨
     ∃ method_desc, Resolves file_desc method method_desc ∧
       (env.ParseFromString method_desc payload = false ∨
        (env.call endpoint method_desc payload).status ≠ Status.OK))

/-! ## Concrete inputs used to exercise the theorems -/

/-- A vector of four slots, one of them null. -/
def sampleVector : PointerVector := { data_ := [some 10, some 11, none, some 12] }

/-- A heap on which one object has been destroyed already. -/
def sampleHeap : Heap := { deleted := [5] }

/-- A client program over two vectors. -/
def sampleProgram : List Op :=
  [Op.push_back 0 (some 1), Op.push_back 0 (some 2), Op.push_back 1 (some 3),
   Op.push_back 1 none, Op.swap 0 1, Op.erase 1 0, Op.resize 0 4, Op.erase_range 0 1 3,
   Op.push_back 1 (some 4), Op.resize 1 1]

/-- A proto with the single service `echo` and its single method `Echo`; payloads parse or
not as `parses` says, and every call ends with the status `status`. -/
def sampleEnv (parses : Bool) (status : Status) : Env where
  Import := some
    { FindServiceByName := fun s =>
        if s = "echo".toList then
          some { FindMethodByName := fun n => if n = "Echo".toList then some ⟨0⟩ else none }
        else none }
  ParseFromString := fun _ _ => parses
  call := fun _ _ _ =>
    { status := status, application_error := 0, error_message := [], reply := [] }

/-- The argument vector `zsendrpc call tcp://host:1 <method> text:hi`. -/
def sampleArgv (method : Str) : List Str :=
  ["zsendrpc".toList, "call".toList, "tcp://host:1".toList, method, "text:hi".toList]

/-! ## Auxiliary facts about lists of pointers -/

theorem delete_deleted (p : Ptr) (h : Heap) :
    (delete p h).deleted = h.deleted ++ [p].reduceOption := by
  cases p <;> simp [delete, List.reduceOption]

theorem deletions_append (h h2 : Heap) (xs : List Nat) (a : Nat)
    (e : h2.deleted = h.deleted ++ xs) : deletions h h2 a = xs.count a := by
  simp [deletions, e, List.count_append]

theorem mem_reduceOption_of_get {l : List Ptr} {i a : Nat}
    (e : l[i]? = some (some a)) : a ∈ l.reduceOption := by
  rw [List.reduceOption_mem_iff]
  exact List.getElem?_mem e

/-- In a vector whose non-null pointers are pairwise distinct, the object found at index `i`
occurs in the middle segment of a three-way split exactly when `i` lies in that segment. -/
theorem count_segment (A B C : List Ptr) (i a : Nat)
    (nd : (A ++ B ++ C).reduceOption.Nodup) (e : (A ++ B ++ C)[i]? = some (some a)) :
    B.reduceOption.count a = if A.length ≤ i ∧ i < A.length + B.length then 1 else 0 := by
  have tot := List.nodup_iff_count_le_one.mp nd a
  simp only [List.reduceOption_append, List.count_append] at tot
  by_cases hA : i < A.length
  · have e1 : A[i]? = some (some a) := by
      rw [List.append_assoc, List.getElem?_append_left hA] at e
      exact e
    have := List.count_pos_iff.mpr (mem_reduceOption_of_get e1)
    have hn : ¬ (A.length ≤ i ∧ i < A.length + B.length) := by omega
    rw [if_neg hn]
    omega
  · by_cases hB : i < A.length + B.length
    · have e1 : B[i - A.length]? = some (some a) := by
        rw [List.append_assoc, List.getElem?_append_right (by omega),
          List.getElem?_append_left (by omega)] at e
        exact e
      have := List.count_pos_iff.mpr (mem_reduceOption_of_get e1)
      have hy : A.length ≤ i ∧ i < A.length + B.length := by omega
      rw [if_pos hy]
      omega
    · have e1 : C[i - (A ++ B).length]? = some (some a) := by
        rw [List.getElem?_append_right (by simp; omega)] at e
        exact e
      have := List.count_pos_iff.mpr (mem_reduceOption_of_get e1)
      have hn : ¬ (A.length ≤ i ∧ i < A.length + B.length) := by omega
      rw [if_neg hn]
      omega

namespace PointerVector

theorem resizeLoop_deleted (v : PointerVector) (fuel i : Nat) (h : Heap)
    (hf : v.size ≤ i + fuel) :
    (v.resizeLoop fuel i h).deleted = h.deleted ++ (v.data_.drop i).reduceOption := by
  induction fuel generalizing i h with
  | zero =>
    have : v.data_.length ≤ i := by simpa [size] using hf
    simp [resizeLoop, List.drop_eq_nil_of_le this]
  | succ n ih =>
    unfold resizeLoop
    by_cases hi : i < v.size
    · have hi2 : i < v.data_.length := hi
      rw [if_pos hi, ih (i + 1) _ (by omega), delete_deleted,
        List.drop_eq_getElem_cons hi2]
      have : v.data_.getD i none = v.data_[i] := by
        simp [List.getD_eq_getElem?_getD, List.getElem?_eq_getElem hi2]
      rw [this]
      cases v.data_[i] <;> simp [List.reduceOption]
    · have : v.data_.length ≤ i := by simpa [size] using hi
      rw [if_neg hi]
      simp [List.drop_eq_nil_of_le this]

theorem eraseLoop_some (v : PointerVector) (last fuel i : Nat) (h : Heap)
    (hil : i ≤ last) (hl : last ≤ v.size) (hf : last < i + fuel) :
    ∃ h2, v.eraseLoop last fuel i h = some h2 ∧
      h2.deleted = h.deleted ++ ((v.data_.take last).drop i).reduceOption := by
  induction fuel generalizing i h with
  | zero => omega
  | succ n ih =>
    unfold eraseLoop
    by_cases e : i = last
    · subst e
      refine ⟨h, by simp, ?_⟩
      have : (v.data_.take i).length ≤ i := by simp
      simp [List.drop_eq_nil_of_le this]
    · have hi : i < v.size := by omega
      have hi2 : i < v.data_.length := hi
      obtain ⟨h2, r, d⟩ := ih (i + 1) (delete (v.data_.getD i none) h) (by omega) (by omega)
      refine ⟨h2, by rw [if_neg e, if_pos hi]; exact r, ?_⟩
      have hlen : i < (v.data_.take last).length := by
        simp only [List.length_take]; omega
      rw [d, delete_deleted, List.drop_eq_getElem_cons hlen]
      have : v.data_.getD i none = v.data_[i] := by
        simp [List.getD_eq_getElem?_getD, List.getElem?_eq_getElem hi2]
      rw [this, List.getElem_take]
      cases v.data_[i] <;> simp [List.reduceOption]

end PointerVector

/-! ## Ownership accounting -/

theorem count_reduceOption (l : List Ptr) (a : Nat) :
    l.reduceOption.count a = l.count (some a) := by
  induction l with
  | nil => simp
  | cons x xs ih =>
    cases x with
    | none => simp [List.reduceOption_cons_of_none, ih]
    | some b =>
      rw [List.reduceOption_cons_of_some, List.count_cons, List.count_cons, ih]
      simp

theorem heldCount_set (a : Nat) (vecs : List PointerVector) (c : Nat) (v v2 : PointerVector)
    (e : vecs[c]? = some v) :
    heldCount a (vecs.set c v2) + v.data_.count (some a)
      = heldCount a vecs + v2.data_.count (some a) := by
  induction vecs generalizing c with
  | nil => simp at e
  | cons x xs ih =>
    cases c with
    | zero =>
      simp only [List.getElem?_cons_zero, Option.some.injEq] at e
      subst e
      simp only [heldCount, List.set_cons_zero, List.map_cons, List.sum_cons]
      omega
    | succ n =>
      simp only [List.getElem?_cons_succ] at e
      have := ih n e
      simp only [heldCount, List.set_cons_succ, List.map_cons, List.sum_cons] at this ⊢
      omega

theorem heldCount_pos (a : Nat) (vecs : List PointerVector) (v : PointerVector)
    (hv : v ∈ vecs) (ha : some a ∈ v.data_) : 0 < heldCount a vecs := by
  induction vecs with
  | nil => simp at hv
  | cons x xs ih =>
    simp only [heldCount, List.map_cons, List.sum_cons]
    rcases List.mem_cons.mp hv with e | e
    · subst e
      have := List.count_pos_iff.mpr ha
      omega
    · have := ih e
      simp only [heldCount] at this
      omega

theorem heldCount_init (a n : Nat) : heldCount a (World.init n).vecs = 0 := by
  induction n with
  | zero => simp [heldCount, World.init]
  | succ k ih =>
    simp only [heldCount, World.init, List.replicate_succ, List.map_cons, List.sum_cons] at ih ⊢
    rw [ih]
    simp [PointerVector.empty]

/-- Every call of `resize`, returning or throwing, leaves a state in which the heap has
gained the non-null pointers of the slots from `sz` on and the vector has lost them. -/
theorem resize_state (v : PointerVector) (sz : Nat) (h : Heap) :
    ∃ r, (v.resize sz h = Completion.returned r ∨ v.resize sz h = Completion.length_error r) ∧
      r.2.deleted = h.deleted ++ (v.data_.drop sz).reduceOption ∧
      ∀ a, r.1.data_.count (some a) + (v.data_.drop sz).reduceOption.count a
        = v.data_.count (some a) := by
  have hl := PointerVector.resizeLoop_deleted v v.size sz h (by omega)
  unfold PointerVector.resize vector_resize
  by_cases c : sz ≤ v.data_.length
  · refine ⟨(_, _), Or.inl (by rw [if_pos c]), hl, ?_⟩
    intro a
    rw [count_reduceOption, ← List.count_append, List.take_append_drop]
  · by_cases m : sz ≤ max_size
    · refine ⟨(_, _), Or.inl (by rw [if_neg c, if_pos m]), hl, ?_⟩
      intro a
      rw [List.drop_eq_nil_of_le (by omega), List.count_append]
      simp [List.count_replicate]
    · refine ⟨(_, _), Or.inr (by rw [if_neg c, if_neg m]), hl, ?_⟩
      intro a
      rw [List.drop_eq_nil_of_le (by omega)]
      simp

theorem resize_zero (v : PointerVector) (h : Heap) :
    v.resize 0 h = Completion.returned ({ data_ := [] }, v.resizeLoop v.size 0 h) := by
  simp [PointerVector.resize, vector_resize]

theorem destructor_deleted (v : PointerVector) (h : Heap) :
    (v.destructor h).deleted = h.deleted ++ v.data_.reduceOption := by
  have := PointerVector.resizeLoop_deleted v v.size 0 h (by omega)
  simpa [PointerVector.destructor, resize_zero] using this

theorem destroyAll_count (vecs : List PointerVector) (h : Heap) (a : Nat) :
    (destroyAll vecs h).deleted.count a = heldCount a vecs + h.deleted.count a := by
  induction vecs generalizing h with
  | nil => simp [destroyAll, heldCount]
  | cons v vs ih =>
    rw [destroyAll, ih, destructor_deleted, List.count_append, count_reduceOption]
    simp only [heldCount, List.map_cons, List.sum_cons]
    omega

theorem erase_eq (v : PointerVector) (h : Heap) (i : Nat) (hi : i < v.data_.length) :
    v.erase i h
      = some ({ data_ := v.data_.take i ++ v.data_.drop (i + 1) }, delete v.data_[i] h) := by
  simp [PointerVector.erase, List.getElem?_eq_getElem hi, List.eraseIdx_eq_take_drop_succ]

theorem erase_range_eq (v : PointerVector) (h : Heap) (first last : Nat)
    (hfl : first ≤ last) (hl : last ≤ v.size) :
    ∃ h2, v.erase_range first last h
        = some ({ data_ := v.data_.take first ++ v.data_.drop last }, h2) ∧
      h2.deleted = h.deleted ++ ((v.data_.take last).drop first).reduceOption := by
  have hl2 : last ≤ v.data_.length := hl
  obtain ⟨h2, hr, hd⟩ :=
    PointerVector.eraseLoop_some v last (v.size + 1) first h hfl hl (by omega)
  exact ⟨h2, by simp [PointerVector.erase_range, hr, vector_erase_range, hfl, hl2], hd⟩

theorem appended_append (l1 l2 : List Op) : appended (l1 ++ l2) = appended l1 ++ appended l2 := by
  induction l1 with
  | nil => simp [appended]
  | cons op ops ih =>
    cases op with
    | push_back c value =>
      cases value with
      | none => simpa [appended] using ih
      | some a => simpa [appended] using ih
    | resize c sz => simpa [appended] using ih
    | erase c index => simpa [appended] using ih
    | erase_range c first last => simpa [appended] using ih
    | swap c d => simpa [appended] using ih

/-- A statement that meets its precondition executes, and the objects held or destroyed
afterwards are those held or destroyed before plus the object it appends. -/
theorem step_account (w : World) (op : Op) (pre : Pre w op) :
    ∃ w2, step w op = some w2 ∧ ∀ a,
      heldCount a w2.vecs + w2.heap.deleted.count a
        = heldCount a w.vecs + w.heap.deleted.count a + (appended [op]).count a := by
  cases op with
  | push_back c value =>
    have hc : c < w.vecs.length := pre
    have e : w.vecs[c]? = some w.vecs[c] := List.getElem?_eq_getElem hc
    refine ⟨_, by simp only [step, e]; rfl, ?_⟩
    intro a
    have := heldCount_set a w.vecs c w.vecs[c] (w.vecs[c].push_back value w.heap).1 e
    simp only [PointerVector.push_back, List.count_append] at this ⊢
    cases value with
    | none => simp [appended] at this ⊢; omega
    | some b =>
      simp only [appended, List.count_cons, List.count_nil] at this ⊢
      by_cases hb : b = a
      · subst hb; simp at this ⊢; omega
      · have hb2 : ¬ (some b = some a) := fun x => hb (Option.some.inj x)
        simp [hb, hb2] at this ⊢; omega
  | resize c sz =>
    have hc : c < w.vecs.length := pre
    have e : w.vecs[c]? = some w.vecs[c] := List.getElem?_eq_getElem hc
    obtain ⟨r, hr, h2, h3⟩ := resize_state w.vecs[c] sz w.heap
    refine ⟨{ vecs := w.vecs.set c r.1, heap := r.2 }, ?_, ?_⟩
    · rcases hr with hr | hr <;> simp only [step, e, hr]
    · intro a
      have h1 := heldCount_set a w.vecs c w.vecs[c] r.1 e
      have h4 := h3 a
      simp only [h2, List.count_append, appended, List.count_nil]
      omega
  | erase c index =>
    obtain ⟨hc, hi⟩ := pre
    have e : w.vecs[c]? = some w.vecs[c] := List.getElem?_eq_getElem hc
    have hv : w.vecs.getD c PointerVector.empty = w.vecs[c] := by
      simp [List.getD_eq_getElem?_getD, e]
    rw [hv] at hi
    generalize w.vecs[c] = v at e hi
    have hi2 : index < v.data_.length := hi
    refine ⟨_, by simp only [step, e, erase_eq v w.heap index hi2]; rfl, ?_⟩
    intro a
    have h1 := heldCount_set a w.vecs c v
      { data_ := v.data_.take index ++ v.data_.drop (index + 1) } e
    have h3 : v.data_.count (some a) = (v.data_.take index).count (some a)
        + ([v.data_[index]].count (some a) + (v.data_.drop (index + 1)).count (some a)) := by
      rw [← List.count_append, ← List.count_append, List.singleton_append,
        ← List.drop_eq_getElem_cons hi2, List.take_append_drop]
    simp only [List.count_append] at h1
    simp only [delete_deleted, List.count_append, count_reduceOption, appended, List.count_nil]
    omega
  | erase_range c first last =>
    obtain ⟨hc, hfl, hl⟩ := pre
    have e : w.vecs[c]? = some w.vecs[c] := List.getElem?_eq_getElem hc
    have hv : w.vecs.getD c PointerVector.empty = w.vecs[c] := by
      simp [List.getD_eq_getElem?_getD, e]
    rw [hv] at hl
    generalize w.vecs[c] = v at e hl
    obtain ⟨h2, hr, hd⟩ := erase_range_eq v w.heap first last hfl hl
    refine ⟨_, by simp only [step, e, hr]; rfl, ?_⟩
    intro a
    have h1 := heldCount_set a w.vecs c v
      { data_ := v.data_.take first ++ v.data_.drop last } e
    have h3 : v.data_.count (some a) = (v.data_.take first).count (some a)
        + (((v.data_.take last).drop first).count (some a)
          + (v.data_.drop last).count (some a)) := by
      have e1 : v.data_.take first = (v.data_.take last).take first := by
        rw [List.take_take, Nat.min_eq_left hfl]
      rw [← List.count_append, ← List.count_append, e1, ← List.append_assoc,
        List.take_append_drop, List.take_append_drop]
    simp only [List.count_append] at h1
    simp only [hd, List.count_append, count_reduceOption, appended, List.count_nil]
    omega
  | swap c d =>
    have hc : c < w.vecs.length := pre.1
    have hd : d < w.vecs.length := pre.2
    have e1 : w.vecs[c]? = some w.vecs[c] := List.getElem?_eq_getElem hc
    have e2 : w.vecs[d]? = some w.vecs[d] := List.getElem?_eq_getElem hd
    refine ⟨_, by simp only [step, e1, e2]; rfl, ?_⟩
    intro a
    have h1 := heldCount_set a w.vecs c w.vecs[c] { data_ := w.vecs[d].data_ } e1
    have e3 : (w.vecs.set c { data_ := w.vecs[d].data_ })[d]? = some w.vecs[d] := by
      rw [List.getElem?_set]
      by_cases cd : c = d
      · subst cd; simp [hc]
      · simp [cd, e2]
    have h2 := heldCount_set a (w.vecs.set c { data_ := w.vecs[d].data_ }) d w.vecs[d]
      { data_ := w.vecs[c].data_ } e3
    simp only [PointerVector.swap, appended, List.count_nil] at h1 h2 ⊢
    omega

theorem valid_of_append (w : World) (l1 l2 : List Op) (valid : ValidFrom w (l1 ++ l2)) :
    ValidFrom w l1 := by
  induction l1 generalizing w with
  | nil => trivial
  | cons op ops ih =>
    exact ⟨valid.1, ih _ valid.2⟩

/-- A valid program runs to completion, and every object it appended is accounted for:
held by a vector or destroyed. -/
theorem run_account (w : World) (ops : List Op) (valid : ValidFrom w ops) :
    ∃ w2, run w ops = some w2 ∧ ∀ a,
      heldCount a w2.vecs + w2.heap.deleted.count a
        = heldCount a w.vecs + w.heap.deleted.count a + (appended ops).count a := by
  induction ops generalizing w with
  | nil => exact ⟨w, rfl, by simp [appended]⟩
  | cons op ops ih =>
    obtain ⟨pre, rest⟩ := valid
    obtain ⟨w1, hs, acc1⟩ := step_account w op pre
    simp only [hs, Option.getD_some] at rest
    obtain ⟨w2, hr, acc2⟩ := ih w1 rest
    refine ⟨w2, by simp only [run, hs, hr], ?_⟩
    intro a
    have e : appended (op :: ops) = appended [op] ++ appended ops :=
      appended_append [op] ops
    rw [acc2 a, acc1 a, e, List.count_append]
    omega

/-! ## Contracts of the single operations -/

namespace PointerVector

/-- C1: on a vector of size N, `resize(k)` with k < N returns and leaves a vector of size k
holding the first k original elements in order; it runs `delete` on exactly the pointers at
the indices k..N-1, once per index and in order, and on nothing else, so that when the
elements are distinct objects each one at an index from k on is destroyed exactly once and
each one below k is not destroyed. -/
theorem resize_shrink (v : PointerVector) (h : Heap) (k : Nat) (hk : k < v.size) :
    ∃ v2 h2, v.resize k h = Completion.returned (v2, h2) ∧
      v2.size = k ∧
      v2.data_ = v.data_.take k ∧
      (∀ i, i < k → (v2.at_ i h2).1 = (v.at_ i h).1) ∧
      h2.deleted = h.deleted ++ (v.data_.drop k).reduceOption ∧
      (v.data_.reduceOption.Nodup → ∀ i a, v.data_[i]? = some (some a) →
        deletions h h2 a = if k ≤ i then 1 else 0) := by
  have hk2 : k ≤ v.data_.length := Nat.le_of_lt hk
  have hl : (v.resizeLoop v.size k h).deleted
      = h.deleted ++ (v.data_.drop k).reduceOption :=
    resizeLoop_deleted v v.size k h (by omega)
  refine ⟨{ data_ := v.data_.take k }, v.resizeLoop v.size k h, ?_, ?_, rfl, ?_, hl, ?_⟩
  · simp [resize, vector_resize, hk2]
  · simp [size, hk2]
  · intro i hi
    simp only [at_]
    exact List.getElem?_take_of_lt hi
  · intro nd i a e
    rw [deletions_append _ _ _ a hl]
    have key := count_segment (v.data_.take k) (v.data_.drop k) [] i a
      (by simpa using nd) (by simpa using e)
    rw [key]
    have hlen : (v.data_.take k).length = k := by simp [hk2]
    have hi : i < v.data_.length := by
      by_contra hc
      rw [List.getElem?_eq_none (by omega)] at e
      exact Option.noConfusion e
    have hdl : (v.data_.drop k).length = v.data_.length - k := by simp
    rw [hlen, hdl]
    by_cases c : k ≤ i
    · rw [if_pos c, if_pos ⟨c, by omega⟩]
    · rw [if_neg c, if_neg (fun x => c x.1)]

/-- C3: on a vector of size N, `erase(i)` with i < N runs `delete` on the pointer at index
i and on nothing else, and leaves N-1 elements: those before i keep their index, those after
i move down by one. -/
theorem erase_index (v : PointerVector) (h : Heap) (i : Nat) (hi : i < v.size) :
    ∃ p v2 h2, v.data_[i]? = some p ∧ v.erase i h = some (v2, h2) ∧
      v2.size = v.size - 1 ∧
      v2.data_ = v.data_.take i ++ v.data_.drop (i + 1) ∧
      (∀ j, j < i → (v2.at_ j h2).1 = (v.at_ j h).1) ∧
      (∀ j, i ≤ j → (v2.at_ j h2).1 = (v.at_ (j + 1) h).1) ∧
      h2.deleted = h.deleted ++ [p].reduceOption ∧
      (v.data_.reduceOption.Nodup → ∀ j a, v.data_[j]? = some (some a) →
        deletions h h2 a = if j = i then 1 else 0) := by
  have hi2 : i < v.data_.length := hi
  have hp : v.data_[i]? = some v.data_[i] := List.getElem?_eq_getElem hi2
  have hl : (delete v.data_[i] h).deleted = h.deleted ++ [v.data_[i]].reduceOption :=
    delete_deleted _ _
  refine ⟨v.data_[i], { data_ := v.data_.eraseIdx i }, delete v.data_[i] h, hp, ?_, ?_,
    List.eraseIdx_eq_take_drop_succ _ _, ?_, ?_, hl, ?_⟩
  · simp [erase, hp]
  · simp [size, List.length_eraseIdx, hi2]
  · intro j hj
    exact List.getElem?_eraseIdx_of_lt _ _ _ hj
  · intro j hj
    exact List.getElem?_eraseIdx_of_ge _ _ _ hj
  · intro nd j a e
    rw [deletions_append _ _ _ a hl]
    have split : v.data_.take i ++ [v.data_[i]] ++ v.data_.drop (i + 1) = v.data_ := by
      rw [List.append_assoc, List.singleton_append, ← List.drop_eq_getElem_cons hi2,
        List.take_append_drop]
    have key := count_segment (v.data_.take i) [v.data_[i]] (v.data_.drop (i + 1)) j a
      (by rw [split]; exact nd) (by rw [split]; exact e)
    rw [key]
    have hlen : (v.data_.take i).length = i := by simp [Nat.le_of_lt hi2]
    rw [hlen]
    by_cases c : j = i
    · rw [if_pos c, if_pos (by simp; omega)]
    · rw [if_neg c, if_neg (by simp; omega)]

/-- C4: on a vector of size N, `erase(first, last)` with first <= last <= N runs `delete` on
exactly the pointers at the positions first..last-1, once each, and leaves the prefix
[0, first) followed by the suffix [last, N); with first = last nothing changes. -/
theorem erase_range_spec (v : PointerVector) (h : Heap) (first last : Nat)
    (hfl : first ≤ last) (hl : last ≤ v.size) :
    ∃ v2 h2, v.erase_range first last h = some (v2, h2) ∧
      v2.size = v.size - (last - first) ∧
      v2.data_ = v.data_.take first ++ v.data_.drop last ∧
      (∀ j, j < first → (v2.at_ j h2).1 = (v.at_ j h).1) ∧
      (∀ j, first ≤ j → (v2.at_ j h2).1 = (v.at_ (j + (last - first)) h).1) ∧
      h2.deleted = h.deleted ++ ((v.data_.take last).drop first).reduceOption ∧
      (v.data_.reduceOption.Nodup → ∀ j a, v.data_[j]? = some (some a) →
        deletions h h2 a = if first ≤ j ∧ j < last then 1 else 0) ∧
      (first = last → v2 = v ∧ h2 = h) := by
  have hl2 : last ≤ v.data_.length := hl
  obtain ⟨h2, hr, hd⟩ := eraseLoop_some v last (v.size + 1) first h hfl hl (by omega)
  have hlen : (v.data_.take first).length = first := by simp; omega
  refine ⟨{ data_ := v.data_.take first ++ v.data_.drop last }, h2, ?_, ?_, rfl, ?_, ?_, hd,
    ?_, ?_⟩
  · simp [erase_range, hr, vector_erase_range, hfl, hl2]
  · simp only [size, List.length_append, List.length_take, List.length_drop]
    omega
  · intro j hj
    simp only [at_]
    rw [List.getElem?_append_left (by omega), List.getElem?_take_of_lt hj]
  · intro j hj
    simp only [at_]
    rw [List.getElem?_append_right (by omega), hlen, List.getElem?_drop]
    congr 1
    omega
  · intro nd j a e
    rw [deletions_append _ _ _ a hd]
    have split : v.data_.take first ++ (v.data_.take last).drop first ++ v.data_.drop last
        = v.data_ := by
      have e1 : v.data_.take first = (v.data_.take last).take first := by
        rw [List.take_take, Nat.min_eq_left hfl]
      rw [e1, List.take_append_drop, List.take_append_drop]
    have key := count_segment (v.data_.take first) ((v.data_.take last).drop first)
      (v.data_.drop last) j a (by rw [split]; exact nd) (by rw [split]; exact e)
    rw [key, hlen]
    have hm : ((v.data_.take last).drop first).length = last - first := by
      simp only [List.length_drop, List.length_take]; omega
    rw [hm]
    by_cases c : first ≤ j ∧ j < last
    · rw [if_pos c, if_pos (by omega)]
    · rw [if_neg c, if_neg (by omega)]
  · intro e
    subst e
    refine ⟨by simp, ?_⟩
    have : (v.data_.take first).length ≤ first := by simp
    cases h2
    cases h
    simpa [List.drop_eq_nil_of_le this] using hd

/-- C5: `a.swap(b)` leaves `a` with the sequence `b` held and `b` with the sequence `a`
held, sizes exchanged, destroys nothing, and a second swap restores both vectors. -/
theorem swap_spec (a b : PointerVector) (h : Heap) :
    (a.swap b h).1.data_ = b.data_ ∧
    (a.swap b h).2.1.data_ = a.data_ ∧
    (a.swap b h).1.size = b.size ∧
    (a.swap b h).2.1.size = a.size ∧
    (a.swap b h).2.2 = h ∧
    (a.swap b h).1.swap (a.swap b h).2.1 (a.swap b h).2.2 = (a, b, h) :=
  ⟨rfl, rfl, rfl, rfl, rfl, rfl⟩

/-- C6: `push_back(x)` on a vector of size N yields size N+1 with `at(N)` equal to x and
`at(i)` unchanged for i < N, and destroys nothing; `at(i)` and `operator[](i)` with
i < size return the i-th element and leave vector and heap as they were. -/
theorem push_back_spec (v : PointerVector) (x : Ptr) (h : Heap) :
    (v.push_back x h).1.size = v.size + 1 ∧
    ((v.push_back x h).1.at_ v.size (v.push_back x h).2).1 = some x ∧
    (∀ i, i < v.size →
      ((v.push_back x h).1.at_ i (v.push_back x h).2).1 = (v.at_ i h).1) ∧
    (v.push_back x h).2 = h ∧
    (∀ i (hi : i < v.data_.length),
      v.at_ i h = (some v.data_[i], v, h) ∧ v.op_index i h = (some v.data_[i], v, h)) := by
  refine ⟨by simp [push_back, size], by simp [push_back, at_, size], ?_, rfl, ?_⟩
  · intro i hi
    simp only [push_back, at_]
    exact List.getElem?_append_left hi
  · intro i hi
    simp [op_index, at_, List.getElem?_eq_getElem hi]

end PointerVector

/-! ## Exactly-once destruction over whole programs -/

/-- C2: a program of `push_back`, `resize`, `erase(index)`, `erase(first, last)` and `swap`
statements that meet their preconditions, run on initially empty vectors and appending
distinct objects once each, runs to completion; after the vectors are destroyed every
appended object has been destroyed exactly once (and nothing else has been destroyed), and
in every intermediate state no vector holds an object that has been destroyed. -/
theorem exactly_once (n : Nat) (ops : List Op)
    (valid : ValidFrom (World.init n) ops) (fresh : (appended ops).Nodup) :
    ∃ w, run (World.init n) ops = some w ∧
      (∀ a, a ∈ appended ops → (destroyAll w.vecs w.heap).deleted.count a = 1) ∧
      (∀ a, a ∉ appended ops → (destroyAll w.vecs w.heap).deleted.count a = 0) ∧
      (∀ pre post, ops = pre ++ post → ∃ wk, run (World.init n) pre = some wk ∧
        ∀ a, Held wk a → a ∉ wk.heap.deleted) := by
  obtain ⟨w, hr, acc⟩ := run_account (World.init n) ops valid
  have total : ∀ a, (destroyAll w.vecs w.heap).deleted.count a = (appended ops).count a := by
    intro a
    rw [destroyAll_count, acc a, heldCount_init]
    simp [World.init]
  refine ⟨w, hr, ?_, ?_, ?_⟩
  · intro a ha
    rw [total a]
    exact List.count_eq_one_of_mem fresh ha
  · intro a ha
    rw [total a]
    exact List.count_eq_zero.mpr ha
  · intro pre post e
    subst e
    obtain ⟨wk, hk, acck⟩ := run_account (World.init n) pre (valid_of_append _ pre post valid)
    refine ⟨wk, hk, ?_⟩
    rintro a ⟨v, hv, ha⟩ hdel
    have h1 := heldCount_pos a wk.vecs v hv ha
    have h2 := List.count_pos_iff.mpr hdel
    have h3 := acck a
    rw [heldCount_init] at h3
    simp only [World.init, List.count_nil] at h3
    have h4 := List.nodup_iff_count_le_one.mp fresh a
    rw [appended_append, List.count_append] at h4
    omega

/-! ## The command-line tool -/

theorem findFrom_not_mem (c : Char) (s : Str) (i : Nat) (h : c ∉ s) : findFrom c s i = npos := by
  induction s generalizing i with
  | nil => rfl
  | cons x xs ih =>
    have hx : ¬ x = c := fun e => h (by simp [e])
    have hxs : c ∉ xs := fun e => h (List.mem_cons_of_mem _ e)
    simp [findFrom, hx, ih _ hxs]

theorem findFrom_mem_lt (c : Char) (s : Str) (i : Nat) (h : c ∈ s) :
    findFrom c s i < i + s.length := by
  induction s generalizing i with
  | nil => simp at h
  | cons x xs ih =>
    by_cases hx : x = c
    · simp [findFrom, hx]
    · have hxs : c ∈ xs := by
        rcases List.mem_cons.mp h with e | e
        · exact absurd e.symm hx
        · exact e
      have := ih (i + 1) hxs
      simp only [findFrom, hx, if_false, List.length_cons]
      omega

theorem rfindLoop_spec (s : Str) (c : Char) (n : Nat) :
    (rfindLoop s c n = npos ∧ ∀ j, j < n → s[j]? ≠ some c) ∨
    (rfindLoop s c n < n ∧ s[rfindLoop s c n]? = some c ∧
      ∀ j, rfindLoop s c n < j → j < n → s[j]? ≠ some c) := by
  induction n with
  | zero => left; exact ⟨rfl, fun j hj => absurd hj (Nat.not_lt_zero j)⟩
  | succ k ih =>
    by_cases hk : s[k]? = some c
    · right
      simp only [rfindLoop, hk, if_true]
      exact ⟨Nat.lt_succ_self k, trivial, fun j h1 h2 => by omega⟩
    · simp only [rfindLoop, hk, if_false]
      rcases ih with ⟨e, hall⟩ | ⟨hlt, hat, hall⟩
      · left
        refine ⟨e, fun j hj => ?_⟩
        by_cases ejk : j = k
        · subst ejk; exact hk
        · exact hall j (by omega)
      · right
        refine ⟨by omega, hat, fun j h1 h2 => ?_⟩
        by_cases ejk : j = k
        · subst ejk; exact hk
        · exact hall j h1 (by omega)

/-- With a dot in `m`, `find_last_of` is the position of its last dot. -/
theorem find_last_of_dot (m : Str) (c : Char) (hm : c ∈ m) :
    find_last_of m c < m.length ∧
    m.take (find_last_of m c) ++ c :: m.drop (find_last_of m c + 1) = m ∧
    c ∉ m.drop (find_last_of m c + 1) := by
  unfold find_last_of
  rcases rfindLoop_spec m c m.length with ⟨_, hall⟩ | ⟨hlt, hat, hall⟩
  · exfalso
    obtain ⟨j, hj⟩ := List.mem_iff_getElem?.mp hm
    have : j < m.length := by
      by_contra hc
      rw [List.getElem?_eq_none (by omega)] at hj
      exact Option.noConfusion hj
    exact hall j this hj
  · refine ⟨hlt, ?_, ?_⟩
    · have e : m[rfindLoop m c m.length] = c := by
        rw [List.getElem?_eq_getElem hlt] at hat
        exact Option.some.inj hat
      conv_rhs => rw [← List.take_append_drop (rfindLoop m c m.length) m]
      rw [List.drop_eq_getElem_cons hlt, e]
    · intro hmem
      obtain ⟨j, hj⟩ := List.mem_iff_getElem?.mp hmem
      rw [List.getElem?_drop] at hj
      have : rfindLoop m c m.length + 1 + j < m.length := by
        by_contra hc
        rw [List.getElem?_eq_none (by omega)] at hj
        exact Option.noConfusion hj
      exact hall _ (by omega) this hj

/-- C9: a `<service.method>` string with a dot is split by `RunCall` at its last dot into a
service name and a method name that contains no dot, the two joined by a dot giving the
string back, and these are the names it looks up; a string without a dot is rejected with a
diagnostic before any service is looked up and no call is made. -/
theorem runCall_split (env : Env) (endpoint m payload : Str) :
    (('.' ∈ m) → m.length < npos →
      ∃ service_name method_name,
        substr m 0 (find_last_of m '.') = some service_name ∧
        substr m ((find_last_of m '.' + 1) % 2 ^ 64) npos = some method_name ∧
        service_name ++ '.' :: method_name = m ∧
        ('.' ∉ method_name) ∧
        ∀ file_desc, env.Import = some file_desc →
          ∃ rest, RunCall env endpoint m payload
              = Event.Import :: Event.FindServiceByName service_name :: rest ∧
            ∀ service_desc, file_desc.FindServiceByName service_name = some service_desc →
              ∃ rest2, rest = Event.FindMethodByName method_name :: rest2) ∧
    (('.' ∉ m) →
      (∀ file_desc, env.Import = some file_desc →
        RunCall env endpoint m payload
          = [Event.Import, Event.cerr (Diag.must_contain_dot m)]) ∧
      (env.Import = none → RunCall env endpoint m payload = [Event.Import]) ∧
      ∀ e, e ∈ RunCall env endpoint m payload →
        e = Event.Import ∨ e = Event.cerr (Diag.must_contain_dot m)) := by
  constructor
  · intro hm hlen
    obtain ⟨hlt, hsplit, hno⟩ := find_last_of_dot m '.' hm
    have hnpos : npos + 1 = 2 ^ 64 := by decide
    have hmod : (find_last_of m '.' + 1) % 2 ^ 64 = find_last_of m '.' + 1 :=
      Nat.mod_eq_of_lt (by omega)
    have hs1 : substr m 0 (find_last_of m '.') = some (m.take (find_last_of m '.')) := by
      simp [substr]
    have hs2 : substr m ((find_last_of m '.' + 1) % 2 ^ 64) npos
        = some (m.drop (find_last_of m '.' + 1)) := by
      rw [hmod]
      unfold substr
      rw [if_neg (by omega), List.take_of_length_le (by simp only [List.length_drop]; omega)]
    have hfind : find m '.' ≠ npos := by
      have := findFrom_mem_lt '.' m 0 hm
      unfold find
      omega
    refine ⟨_, _, hs1, hs2, hsplit, hno, ?_⟩
    intro file_desc himp
    cases hsd : file_desc.FindServiceByName (m.take (find_last_of m '.')) with
    | none =>
      refine ⟨_, by simp only [RunCall, himp, hfind, if_false, hs1, hs2, hsd]; rfl, ?_⟩
      intro sd e
      exact Option.noConfusion e
    | some sd =>
      refine ⟨_, by simp only [RunCall, himp, hfind, if_false, hs1, hs2, hsd]; rfl, ?_⟩
      intro sd2 _
      exact ⟨_, rfl⟩
  · intro hm
    have hfind : find m '.' = npos := findFrom_not_mem '.' m 0 hm
    have h1 : ∀ file_desc, env.Import = some file_desc →
        RunCall env endpoint m payload
          = [Event.Import, Event.cerr (Diag.must_contain_dot m)] := by
      intro fd himp
      simp [RunCall, himp, hfind]
    have h2 : env.Import = none → RunCall env endpoint m payload = [Event.Import] := by
      intro himp
      simp [RunCall, himp]
    refine ⟨h1, h2, ?_⟩
    intro e he
    cases himp : env.Import with
    | none =>
      rw [h2 himp] at he
      left
      simpa using he
    | some fd =>
      rw [h1 fd himp] at he
      simpa using he

/-- The string echo.Echo names the method of the sample proto. -/
theorem sample_resolves (parses : Bool) (status : Status) :
    ∀ fd, (sampleEnv parses status).Import = some fd →
      Resolves fd "echo.Echo".toList ⟨0⟩ := by
  intro fd e
  simp only [sampleEnv, Option.some.injEq] at e
  subst e
  exact ⟨"echo".toList, "Echo".toList,
    { FindMethodByName := fun n => if n = "Echo".toList then some ⟨0⟩ else none },
    by decide, rfl, rfl⟩

/-- C7, as stated, fails: an unresolvable `<service.method>`, a payload that does not
parse, and a call that ends with `CONNECTION_ERROR` are failures in the sense of the
specification, yet `Run` returns 0 and `main` exits with 0. -/
theorem exit_code_zero_on_failure :
    (SpecFailure (sampleEnv true Status.OK) (sampleArgv "echo".toList) ∧
      (Run (sampleEnv true Status.OK) (sampleArgv "echo".toList)).map Prod.fst = some 0) ∧
    (SpecFailure (sampleEnv false Status.OK) (sampleArgv "echo.Echo".toList) ∧
      (Run (sampleEnv false Status.OK) (sampleArgv "echo.Echo".toList)).map Prod.fst
        = some 0) ∧
    (SpecFailure (sampleEnv true Status.CONNECTION_ERROR) (sampleArgv "echo.Echo".toList) ∧
      (Run (sampleEnv true Status.CONNECTION_ERROR) (sampleArgv "echo.Echo".toList)).map
        Prod.fst = some 0 ∧
      (main (sampleEnv true Status.CONNECTION_ERROR) (sampleArgv "echo.Echo".toList)).map
        Prod.fst = some 0) := by
  refine ⟨⟨?_, by decide⟩, ⟨?_, by decide⟩, ?_, by decide, by decide⟩
  · refine Or.inr ⟨_, _, _, _, _, rfl, rfl, Or.inl ?_⟩
    rintro md ⟨s, n, sd, e, -, -⟩
    have : '.' ∈ "echo".toList := by rw [e]; simp
    revert this
    decide
  · exact Or.inr ⟨_, _, _, _, _, rfl, rfl,
      Or.inr ⟨⟨0⟩, sample_resolves false Status.OK _ rfl, Or.inl rfl⟩⟩
  · exact Or.inr ⟨_, _, _, _, _, rfl, rfl,
      Or.inr ⟨⟨0⟩, sample_resolves true Status.CONNECTION_ERROR _ rfl, Or.inr (by decide)⟩⟩

/-- C7, amended: `Run` returns -1 exactly when the arguments are malformed, and 0 for every
well-formed `call` invocation, whose only effect is that of `RunCall`; `main` exits with
the value `Run` returned. -/
theorem exit_code (env : Env) (argv : List Str) (hne : argv ≠ []) :
    ∃ r t, Run env argv = some (r, t) ∧
      (main env argv).map Prod.fst = some r ∧
      (r = 0 ∨ r = -1) ∧
      (r ≠ 0 ↔ ¬ WellFormedArgs argv) ∧
      (∀ prog endpoint method payload,
        argv = [prog, "call".toList, endpoint, method, payload] →
          r = 0 ∧ t = RunCall env endpoint method payload) := by
  have hmain : ∀ r t, Run env argv = some (r, t) → (main env argv).map Prod.fst = some r := by
    intro r t e
    simp [main, e]
  rcases argv with _ | ⟨a, _ | ⟨command, rest⟩⟩
  · exact absurd rfl hne
  · have e : Run env [a] = some (-1, [Event.cerr Diag.expecting_command]) := by simp [Run]
    refine ⟨_, _, e, hmain _ _ e, Or.inr rfl, ?_, ?_⟩
    · simp [WellFormedArgs]
    · intro p e m pl h
      simp at h
  · by_cases hc : command = "call".toList
    · subst hc
      by_cases hl : rest.length = 3
      · obtain ⟨endpoint, method, payload, rfl⟩ : ∃ x y z, rest = [x, y, z] := by
          rcases rest with _ | ⟨x, _ | ⟨y, _ | ⟨z, _ | ⟨u, r⟩⟩⟩⟩ <;> simp at hl
          exact ⟨x, y, z, rfl⟩
        have e : Run env [a, "call".toList, endpoint, method, payload]
            = some (0, RunCall env endpoint method payload) := by simp [Run]
        refine ⟨_, _, e, hmain _ _ e, Or.inl rfl, ?_, ?_⟩
        · simp [WellFormedArgs]
        · intro p e2 m pl h
          simp only [List.cons.injEq, and_true, true_and] at h
          obtain ⟨-, h1, h2, h3⟩ := h
          subst h1 h2 h3
          exact ⟨rfl, rfl⟩
      · have e : Run env (a :: "call".toList :: rest)
            = some (-1, [Event.cerr Diag.call_usage]) := by
          simp [Run]
          omega
        refine ⟨_, _, e, hmain _ _ e, Or.inr rfl, ?_, ?_⟩
        · simp [WellFormedArgs]
          omega
        · intro p e2 m pl h
          simp only [List.cons.injEq, true_and] at h
          obtain ⟨-, h1⟩ := h
          subst h1
          simp at hl
    · have hc2 : ¬ command = ['c', 'a', 'l', 'l'] := hc
      have e : Run env (a :: command :: rest)
          = some (-1, [Event.cerr Diag.only_call_supported]) := by
        simp [Run, hc2]
      refine ⟨_, _, e, hmain _ _ e, Or.inr rfl, ?_, ?_⟩
      · simp [WellFormedArgs, hc2]
      · intro p e2 m pl h
        simp only [List.cons.injEq] at h
        exact absurd h.2.1 hc

/-! ## The theorems at concrete inputs -/

/-- Shrinking the sample vector to one slot destroys the objects 11 and 12 once each and
leaves object 10 alone. -/
theorem resize_shrink_witness :
    1 < sampleVector.size ∧
    sampleVector.data_.reduceOption.Nodup ∧
    ∃ v2 h2, sampleVector.resize 1 sampleHeap = Completion.returned (v2, h2) ∧
      v2.data_ = [some 10] ∧
      h2.deleted = [5, 11, 12] ∧
      deletions sampleHeap h2 12 = 1 ∧
      deletions sampleHeap h2 10 = 0 := by
  obtain ⟨v2, h2, hr, _, hd, _, hl, hn⟩ :=
    PointerVector.resize_shrink sampleVector sampleHeap 1 (by decide)
  exact ⟨by decide, by decide, v2, h2, hr, hd, hl, hn (by decide) 3 12 rfl,
    hn (by decide) 0 10 rfl⟩

/-- Erasing index 1 of the sample vector destroys object 11 only. -/
theorem erase_index_witness :
    1 < sampleVector.size ∧
    ∃ v2 h2, sampleVector.erase 1 sampleHeap = some (v2, h2) ∧
      v2.data_ = [some 10, none, some 12] ∧
      deletions sampleHeap h2 11 = 1 ∧ deletions sampleHeap h2 12 = 0 := by
  obtain ⟨_, v2, h2, _, he, _, hd, _, _, _, hn⟩ :=
    PointerVector.erase_index sampleVector sampleHeap 1 (by decide)
  exact ⟨by decide, v2, h2, he, hd, hn (by decide) 1 11 rfl, hn (by decide) 3 12 rfl⟩

/-- Erasing the range [1, 3) of the sample vector destroys object 11 (slot 2 is null). -/
theorem erase_range_witness :
    1 ≤ 3 ∧ 3 ≤ sampleVector.size ∧
    ∃ v2 h2, sampleVector.erase_range 1 3 sampleHeap = some (v2, h2) ∧
      v2.data_ = [some 10, some 12] ∧ h2.deleted = [5, 11] ∧
      deletions sampleHeap h2 11 = 1 ∧ deletions sampleHeap h2 12 = 0 := by
  obtain ⟨v2, h2, he, _, hd, _, _, hl, hn, _⟩ :=
    PointerVector.erase_range_spec sampleVector sampleHeap 1 3 (by decide) (by decide)
  exact ⟨by decide, by decide, v2, h2, he, hd, hl, hn (by decide) 1 11 rfl,
    hn (by decide) 3 12 rfl⟩

/-- Appending to the sample vector and reading from it. -/
theorem push_back_witness :
    ((sampleVector.push_back (some 13) sampleHeap).1.at_ 4 sampleHeap).1 = some (some 13) ∧
    sampleVector.at_ 3 sampleHeap = (some (some 12), sampleVector, sampleHeap) :=
  have t := PointerVector.push_back_spec sampleVector (some 13) sampleHeap
  ⟨t.2.1, (t.2.2.2.2 3 (by decide)).1⟩

/-- The sample program is valid and appends distinct objects; object 3 is destroyed once. -/
theorem exactly_once_witness :
    ValidFrom (World.init 2) sampleProgram ∧ (appended sampleProgram).Nodup ∧
    ∃ w, run (World.init 2) sampleProgram = some w ∧
      (destroyAll w.vecs w.heap).deleted.count 3 = 1 ∧
      (destroyAll w.vecs w.heap).deleted.count 7 = 0 := by
  obtain ⟨w, hr, h1, h0, _⟩ := exactly_once 2 sampleProgram (by decide) (by decide)
  exact ⟨by decide, by decide, w, hr, h1 3 (by decide), h0 7 (by decide)⟩

/-- The string pkg.echo.Echo is split at its last dot; the string echo is rejected. -/
theorem runCall_split_witness :
    ('.' ∈ "pkg.echo.Echo".toList) ∧ "pkg.echo.Echo".toList.length < npos ∧
    (∃ service_name method_name,
      substr "pkg.echo.Echo".toList 0 (find_last_of "pkg.echo.Echo".toList '.')
        = some service_name ∧
      service_name ++ '.' :: method_name = "pkg.echo.Echo".toList ∧
      ('.' ∉ method_name)) ∧
    ('.' ∉ "echo".toList) ∧
    (∀ e, e ∈ RunCall (sampleEnv true Status.OK) [] "echo".toList [] →
      e = Event.Import ∨ e = Event.cerr (Diag.must_contain_dot "echo".toList)) := by
  obtain ⟨s, n, h1, _, h3, h4, _⟩ :=
    (runCall_split (sampleEnv true Status.OK) [] "pkg.echo.Echo".toList []).1
      (by decide) (by decide)
  exact ⟨by decide, by decide, ⟨s, n, h1, h3, h4⟩, by decide,
    ((runCall_split (sampleEnv true Status.OK) [] "echo".toList []).2 (by decide)).2.2⟩

/-- The result code of a well-formed call invocation. -/
theorem exit_code_witness :
    sampleArgv "echo.Echo".toList ≠ [] ∧
    ∃ r t, Run (sampleEnv true Status.OK) (sampleArgv "echo.Echo".toList) = some (r, t) ∧
      (r ≠ 0 ↔ ¬ WellFormedArgs (sampleArgv "echo.Echo".toList)) := by
  obtain ⟨r, t, h1, _, _, h4, _⟩ :=
    exit_code (sampleEnv true Status.OK) (sampleArgv "echo.Echo".toList) (by decide)
  exact ⟨by decide, r, t, h1, h4⟩

end zrpc
